import Mathlib

/-!
# Verification of the rust-warc streaming WARC parser

A shallow embedding of `src/lib.rs` of the `rust-warc` crate.

The byte source (`impl BufRead`) is modelled as a `List Nat` of bytes
(each < 256).  Rust `String`s are modelled as lists of Unicode code
points (`List Nat`); `read_line` splits the byte stream at the first
`0x0A` byte inclusive and UTF-8-decodes what it read, failing with an
I/O error on invalid UTF-8, exactly as Rust's `BufRead::read_line`.
The `HashMap<CaseString, String>` is modelled as an association list
with overwrite-on-insert semantics.
-/

namespace RustWarc

/-- Unicode code points with the `White_Space` property: this is the set
accepted by Rust's `char::is_whitespace`, used by `str::trim` and
`str::trim_end`. -/
def isRustWhitespace (c : Nat) : Bool :=
  c == 0x09 || c == 0x0A || c == 0x0B || c == 0x0C || c == 0x0D || c == 0x20 ||
  c == 0x85 || c == 0xA0 || c == 0x1680 ||
  (0x2000 ≤ c && c ≤ 0x200A) ||
  c == 0x2028 || c == 0x2029 || c == 0x202F || c == 0x205F || c == 0x3000

/-- Rust `str::trim_end`: drop trailing whitespace code points.
Models the `rtrim` helper of `lib.rs` (which truncates the string to
`s.trim_end().len()`). -/
def rtrimCps (l : List Nat) : List Nat :=
  (l.reverse.dropWhile isRustWhitespace).reverse

/-- Rust `str::trim_start`: drop leading whitespace code points. -/
def ltrimCps (l : List Nat) : List Nat :=
  l.dropWhile isRustWhitespace

/-- Rust `str::trim`: drop whitespace code points on both ends. -/
def trimCps (l : List Nat) : List Nat :=
  ltrimCps (rtrimCps l)

/-- Rust `u8::to_ascii_lowercase` / `char::to_ascii_lowercase` on a code point. -/
def lowerAsciiChar (c : Nat) : Nat :=
  if 65 ≤ c ∧ c ≤ 90 then c + 32 else c

/-- Rust `str::make_ascii_lowercase`: ASCII uppercase letters are folded to
lowercase, every other code point is preserved. -/
def lowerAscii (l : List Nat) : List Nat :=
  l.map lowerAsciiChar

/-- The `CaseString` type of `lib.rs`: a string wrapper whose stored form
is the ASCII-lowercased input.  Derived equality compares the stored
form, exactly like the derived `PartialEq`/`Eq` on the Rust struct. -/
structure CaseString where
  inner : List Nat
deriving DecidableEq

/-- Conversion `impl From<String> for CaseString`: `s.make_ascii_lowercase()` then wrap. -/
def CaseString.fromText (s : List Nat) : CaseString :=
  ⟨lowerAscii s⟩

/-- The header map: `HashMap<CaseString, String>` as an association list,
one entry per key. -/
abbrev Hdr : Type := List (CaseString × List Nat)

/-- Rust `HashMap::insert`: replaces the value stored under an equal key. -/
def hdrInsert (m : Hdr) (k : CaseString) (v : List Nat) : Hdr :=
  (k, v) :: (List.filter (fun p => p.1 ≠ k) m)

/-- Rust `HashMap::get`. -/
def hdrGet (m : Hdr) (k : CaseString) : Option (List Nat) :=
  (List.find? (fun p => p.1 = k) m).map Prod.snd

/-- A parsed WARC record (`struct WarcRecord`): version string (code
points), header map, and raw content bytes. -/
structure WarcRecord where
  version : List Nat
  header : Hdr
  content : List Nat
deriving DecidableEq

/-- The `enum WarcError`.  The `IO(std::io::Error)` payload is dropped: the
cause is passed through verbatim and never inspected by this crate. -/
inductive WarcError where
  | malformed : String → WarcError
  | ioErr : WarcError
  | eof : WarcError
deriving DecidableEq

/-- Rust `BufRead::read_until` at byte `0x0A`: the raw bytes of one line, up to and
including the first `0x0A` byte (all remaining bytes if none), paired
with the rest of the stream. -/
def splitLine : List Nat → List Nat × List Nat
  | [] => ([], [])
  | b :: bs =>
    if b = 10 then ([10], bs)
    else
      let p := splitLine bs
      (b :: p.1, p.2)

/-- Decoding of one UTF-8 character from the front of a byte list, as
performed by Rust's `String` validation: rejects stray continuation
bytes, overlong encodings, surrogates and code points above
`0x10FFFF`.  Returns the code point and the remaining bytes. -/
def utf8Step (l : List Nat) : Option (Nat × List Nat) :=
  match l with
  | [] => none
  | b :: bs =>
    if b < 0x80 then some (b, bs)
    else if b < 0xC2 then none
    else if b < 0xE0 then
      match bs with
      | b1 :: bs1 =>
        if 0x80 ≤ b1 ∧ b1 < 0xC0 then
          some ((b - 0xC0) * 0x40 + (b1 - 0x80), bs1)
        else none
      | _ => none
    else if b < 0xF0 then
      match bs with
      | b1 :: b2 :: bs1 =>
        if 0x80 ≤ b1 ∧ b1 < 0xC0 ∧ 0x80 ≤ b2 ∧ b2 < 0xC0 then
          let cp := (b - 0xE0) * 0x1000 + (b1 - 0x80) * 0x40 + (b2 - 0x80)
          if 0x800 ≤ cp ∧ ¬ (0xD800 ≤ cp ∧ cp ≤ 0xDFFF) then
            some (cp, bs1)
          else none
        else none
      | _ => none
    else if b < 0xF5 then
      match bs with
      | b1 :: b2 :: b3 :: bs1 =>
        if 0x80 ≤ b1 ∧ b1 < 0xC0 ∧ 0x80 ≤ b2 ∧ b2 < 0xC0 ∧ 0x80 ≤ b3 ∧ b3 < 0xC0 then
          let cp := (b - 0xF0) * 0x40000 + (b1 - 0x80) * 0x1000 +
            (b2 - 0x80) * 0x40 + (b3 - 0x80)
          if 0x10000 ≤ cp ∧ cp ≤ 0x10FFFF then
            some (cp, bs1)
          else none
        else none
      | _ => none
    else none

/-- Strict UTF-8 decoding of a whole byte list into code points, by
iterating `utf8Step`; the fuel is structural and any fuel at least the
list length suffices, since each step consumes at least one byte
(`utf8DecodeF_congr` below). -/
def utf8DecodeF (fuel : Nat) (l : List Nat) : Option (List Nat) :=
  match fuel with
  | 0 => if l = [] then some [] else none
  | fuel + 1 =>
    match l with
    | [] => some []
    | _ =>
      match utf8Step l with
      | none => none
      | some (cp, rest) => (utf8DecodeF fuel rest).map (cp :: ·)

/-- Strict UTF-8 decoding of a byte list, as performed by Rust's
`String` type (`String::from_utf8` / `BufRead::read_line`). -/
def utf8Decode (l : List Nat) : Option (List Nat) :=
  utf8DecodeF l.length l

/-- Rust `<usize as FromStr>::from_str` on the code points of a string:
an optional leading `+`, then one or more ASCII digits, value bounded
by `usize::MAX` (64-bit). -/
def parseUsize (cps : List Nat) : Option Nat :=
  let ds := if cps.head? = some 43 then cps.tail else cps
  if ds = [] then none
  else if ds.all (fun c => 48 ≤ c && c ≤ 57) then
    let n := ds.foldl (fun acc c => acc * 10 + (c - 48)) 0
    if n < 2 ^ 64 then some n else none
  else none

/-- The code points of the literal `"WARC/1."`. -/
def warcVersionMarker : List Nat := [87, 65, 82, 67, 47, 49, 46]

/-- Rust `str::starts_with` on code-point lists. -/
def startsWith (p l : List Nat) : Bool :=
  l.take p.length = p

/-- The code points of `"Content-Length"` lowered by `CaseString::from`,
i.e. the stored form of the lookup key built at `header.get(&"Content-Length".into())`. -/
def contentLengthKey : CaseString :=
  ⟨[99, 111, 110, 116, 101, 110, 116, 45, 108, 101, 110, 103, 116, 104]⟩

theorem splitLine_eq (s : List Nat) : s = (splitLine s).1 ++ (splitLine s).2 := by
  induction s with
  | nil => rfl
  | cons b bs ih =>
    by_cases hb : b = 10
    · simp [splitLine, hb]
    · simpa [splitLine, hb] using ih

theorem splitLine_fst_ne_nil {s : List Nat} (h : s ≠ []) : (splitLine s).1 ≠ [] := by
  cases s with
  | nil => exact absurd rfl h
  | cons b bs =>
    by_cases hb : b = 10 <;> simp [splitLine, hb]

theorem splitLine_snd_lt {s : List Nat} (h : (splitLine s).1 ≠ []) :
    (splitLine s).2.length < s.length := by
  have he := congrArg List.length (splitLine_eq s)
  rw [List.length_append] at he
  have h0 : (splitLine s).1.length ≠ 0 := by simpa using h
  omega

/-- The header-block loop of `WarcRecord::parse`, structured with an
explicit fuel argument so that the recursion is structural (each
iteration consumes at least one byte of the stream, so any fuel
exceeding the stream length never runs out: `parseHeadersF_congr`
below makes the fuel irrelevance precise).  The loop reads lines until
an empty line (`"\r\n"` or bare `"\n"`); each other line must contain
a colon and is split at the first colon into a right-trimmed name and
a both-ends trimmed value, inserted into the map.  Exhaustion of the
stream (an empty read) hits the no-colon branch. -/
def parseHeadersF (fuel : Nat) (s : List Nat) (hdr : Hdr) : (Except WarcError Hdr) × List Nat :=
  match fuel with
  | 0 => (.error .ioErr, [])
  | fuel + 1 =>
    match splitLine s with
    | (lb, rest) =>
      match utf8Decode lb with
      | none => (.error .ioErr, rest)
      | some line =>
        if line = [13, 10] ∨ line = [10] then (.ok hdr, rest)
        else
          let line' := rtrimCps line
          if 58 ∈ line' then
            let name := rtrimCps (line'.takeWhile (· ≠ 58))
            let value := trimCps (line'.dropWhile (· ≠ 58)).tail
            parseHeadersF fuel rest (hdrInsert hdr (CaseString.fromText name) value)
          else (.error (.malformed "Invalid header field"), rest)

/-- The header-block loop of `WarcRecord::parse`, run with enough fuel
for the whole stream. -/
def parseHeaders (s : List Nat) (hdr : Hdr) : (Except WarcError Hdr) × List Nat :=
  parseHeadersF (s.length + 1) s hdr

/-- The tail of `WarcRecord::parse` after Content-Length resolution:
`read_exact` of `content_len` bytes (short read is an I/O error), then
`read_exact` of four bytes which must be `CR LF CR LF`. -/
def finishRecord (v : List Nat) (hdr : Hdr) (n : Nat) (s : List Nat) :
    (Except WarcError WarcRecord) × List Nat :=
  if n ≤ s.length then
    let s2 := s.drop n
    if 4 ≤ s2.length then
      if s2.take 4 = [13, 10, 13, 10] then
        (.ok ⟨v, hdr, s.take n⟩, s2.drop 4)
      else
        (.error (.malformed "No double linefeed after record content"), s2.drop 4)
    else (.error .ioErr, [])
  else (.error .ioErr, [])

/-- Continuation of `WarcRecord::parse` after a successful version-line check: header
block, Content-Length resolution, content, trailing separator. -/
def afterVersion (v : List Nat) (s : List Nat) : (Except WarcError WarcRecord) × List Nat :=
  match parseHeaders s [] with
  | (.error e, rest) => (.error e, rest)
  | (.ok hdr, rest) =>
    match hdrGet hdr contentLengthKey with
    | none => (.error (.malformed "Content-Length is missing"), rest)
    | some cl =>
      match parseUsize cl with
      | none => (.error (.malformed "Content-Length is not a number"), rest)
      | some n => finishRecord v hdr n rest

/-- The function `WarcRecord::parse`: read the version line (an empty read is clean
end-of-stream `eof`), strip trailing whitespace, require the
`WARC/1.` prefix, then parse the rest of the record.  Returns the
result together with the remaining byte stream. -/
def parse (s : List Nat) : (Except WarcError WarcRecord) × List Nat :=
  match splitLine s with
  | (lb, rest) =>
    match utf8Decode lb with
    | none => (.error .ioErr, rest)
    | some version =>
      if version = [] then (.error .eof, rest)
      else
        let v := rtrimCps version
        if startsWith warcVersionMarker v then afterVersion v rest
        else (.error (.malformed "Unknown WARC version"), rest)

/-- The `struct WarcReader`: the byte source plus the `valid_state` flag. -/
structure WarcReader where
  read : List Nat
  valid_state : Bool
deriving DecidableEq

/-- Constructor `WarcReader::new`. -/
def WarcReader.new (s : List Nat) : WarcReader :=
  ⟨s, true⟩

/-- The iterator `<WarcReader as Iterator>::next`: if poisoned yield nothing, else
run the parser; `Ok` is yielded, `eof` terminates the sequence, any
other error poisons the reader and is yielded once. -/
def readerNext (r : WarcReader) : Option (Except WarcError WarcRecord) × WarcReader :=
  if r.valid_state = false then (none, r)
  else
    match parse r.read with
    | (.ok item, rest) => (some (.ok item), ⟨rest, true⟩)
    | (.error .eof, rest) => (none, ⟨rest, r.valid_state⟩)
    | (.error e, rest) => (some (.error e), ⟨rest, false⟩)

/-- Iterating the reader to exhaustion (with fuel): the list of items
yielded before the first `none`. -/
def readerRun (fuel : Nat) (r : WarcReader) : List (Except WarcError WarcRecord) :=
  match fuel with
  | 0 => []
  | fuel' + 1 =>
    match readerNext r with
    | (none, _) => []
    | (some x, r') => x :: readerRun fuel' r'

theorem splitLine_extend {s lb rest : List Nat} (hsp : splitLine s = (lb, rest))
    (h10 : 10 ∈ lb) (t : List Nat) : splitLine (s ++ t) = (lb, rest ++ t) := by
  induction s generalizing lb rest with
  | nil =>
    have h1 : lb = [] := by
      have := congrArg Prod.fst hsp
      simpa [splitLine] using this.symm
    subst h1
    simp at h10
  | cons b bs ih =>
    by_cases hb : b = 10
    · subst hb
      have h1 : lb = [10] := by
        have := congrArg Prod.fst hsp
        simpa [splitLine] using this.symm
      have h2 : rest = bs := by
        have := congrArg Prod.snd hsp
        simpa [splitLine] using this.symm
      subst h1
      subst h2
      simp [splitLine]
    · have h1 : lb = b :: (splitLine bs).1 := by
        have := congrArg Prod.fst hsp
        simpa [splitLine, hb] using this.symm
      have h2 : rest = (splitLine bs).2 := by
        have := congrArg Prod.snd hsp
        simpa [splitLine, hb] using this.symm
      subst h1
      subst h2
      have h10' : 10 ∈ (splitLine bs).1 := by
        rcases List.mem_cons.mp h10 with h | h
        · exact absurd h.symm hb
        · exact h
      have ihh := @ih (splitLine bs).1 (splitLine bs).2 rfl h10'
      simp [splitLine, hb, ihh]

theorem splitLine_no10 {s lb rest : List Nat} (hsp : splitLine s = (lb, rest))
    (h10 : 10 ∉ lb) : rest = [] ∧ s = lb := by
  induction s generalizing lb rest with
  | nil =>
    have h1 : lb = [] := by
      have := congrArg Prod.fst hsp
      simpa [splitLine] using this.symm
    have h2 : rest = [] := by
      have := congrArg Prod.snd hsp
      simpa [splitLine] using this.symm
    exact ⟨h2, h1.symm⟩
  | cons b bs ih =>
    by_cases hb : b = 10
    · subst hb
      have h1 : lb = [10] := by
        have := congrArg Prod.fst hsp
        simpa [splitLine] using this.symm
      rw [h1] at h10
      simp at h10
    · have h1 : lb = b :: (splitLine bs).1 := by
        have := congrArg Prod.fst hsp
        simpa [splitLine, hb] using this.symm
      have h2 : rest = (splitLine bs).2 := by
        have := congrArg Prod.snd hsp
        simpa [splitLine, hb] using this.symm
      subst h1
      subst h2
      have h10' : 10 ∉ (splitLine bs).1 := fun hm => h10 (List.mem_cons_of_mem _ hm)
      obtain ⟨hr, hs⟩ := @ih (splitLine bs).1 (splitLine bs).2 rfl h10'
      exact ⟨hr, by rw [← hs]⟩

theorem utf8Decode_nil_inv {line : List Nat} (h : utf8Decode [] = some line) :
    line = [] :=
  (Option.some.inj h).symm

theorem parseHeadersF_congr :
    ∀ (n : Nat) (s : List Nat) (hdr : Hdr) (f₁ f₂ : Nat),
      s.length ≤ n → s.length < f₁ → s.length < f₂ →
      parseHeadersF f₁ s hdr = parseHeadersF f₂ s hdr := by
  intro n
  induction n with
  | zero =>
    intro s hdr f₁ f₂ hn h1 h2
    have hs : s = [] := List.length_eq_zero.mp (Nat.le_zero.mp hn)
    subst hs
    obtain ⟨k1, rfl⟩ : ∃ k, f₁ = k + 1 := ⟨f₁ - 1, by omega⟩
    obtain ⟨k2, rfl⟩ : ∃ k, f₂ = k + 1 := ⟨f₂ - 1, by omega⟩
    rfl
  | succ n ih =>
    intro s hdr f₁ f₂ hn h1 h2
    obtain ⟨k1, rfl⟩ : ∃ k, f₁ = k + 1 := ⟨f₁ - 1, by omega⟩
    obtain ⟨k2, rfl⟩ : ∃ k, f₂ = k + 1 := ⟨f₂ - 1, by omega⟩
    have hsplit : splitLine s = ((splitLine s).1, (splitLine s).2) := rfl
    simp only [parseHeadersF]
    cases hdec : utf8Decode (splitLine s).1 with
    | none => rfl
    | some line =>
      by_cases hblank : line = [13, 10] ∨ line = [10]
      · simp [hblank]
      · simp only [if_neg hblank]
        by_cases hc : (58 : Nat) ∈ rtrimCps line
        · simp only [if_pos hc]
          have hlb : (splitLine s).1 ≠ [] := by
            intro hnil
            rw [hnil] at hdec
            have := utf8Decode_nil_inv hdec
            subst this
            simp [rtrimCps] at hc
          have hlt := splitLine_snd_lt hlb
          exact ih (splitLine s).2 _ k1 k2 (by omega) (by omega) (by omega)
        · simp only [if_neg hc]

theorem parseHeaders_nil (hdr : Hdr) :
    parseHeaders [] hdr = (.error (.malformed "Invalid header field"), []) := rfl

theorem parseHeaders_eq (s : List Nat) (hdr : Hdr) :
    parseHeaders s hdr =
      match utf8Decode (splitLine s).1 with
      | none => (.error .ioErr, (splitLine s).2)
      | some line =>
        if line = [13, 10] ∨ line = [10] then (.ok hdr, (splitLine s).2)
        else if 58 ∈ rtrimCps line then
          parseHeaders (splitLine s).2
            (hdrInsert hdr
              (CaseString.fromText (rtrimCps ((rtrimCps line).takeWhile (· ≠ 58))))
              (trimCps ((rtrimCps line).dropWhile (· ≠ 58)).tail))
        else (.error (.malformed "Invalid header field"), (splitLine s).2) := by
  show parseHeadersF (s.length + 1) s hdr = _
  simp only [parseHeadersF]
  cases hdec : utf8Decode (splitLine s).1 with
  | none => rfl
  | some line =>
    by_cases hblank : line = [13, 10] ∨ line = [10]
    · simp [hblank]
    · simp only [if_neg hblank]
      by_cases hc : (58 : Nat) ∈ rtrimCps line
      · simp only [if_pos hc]
        have hlb : (splitLine s).1 ≠ [] := by
          intro hnil
          rw [hnil] at hdec
          have := utf8Decode_nil_inv hdec
          subst this
          simp [rtrimCps] at hc
        have hlt := splitLine_snd_lt hlb
        exact parseHeadersF_congr (splitLine s).2.length (splitLine s).2 _ _ _
          (le_refl _) (by omega) (by omega)
      · simp only [if_neg hc]

theorem utf8Step_decomp {l : List Nat} {cp : Nat} {rest : List Nat}
    (h : utf8Step l = some (cp, rest)) :
    ∃ pre, l = pre ++ rest ∧ pre ≠ [] ∧ (cp < 0x80 → pre = [cp]) := by
  cases l with
  | nil => simp [utf8Step] at h
  | cons b bs =>
    simp only [utf8Step] at h
    by_cases h1 : b < 0x80
    · rw [if_pos h1] at h
      simp only [Option.some.injEq, Prod.mk.injEq] at h
      exact ⟨[b], by simp [h.1, h.2], by simp, fun _ => by simp [h.1]⟩
    · rw [if_neg h1] at h
      by_cases h2 : b < 0xC2
      · rw [if_pos h2] at h
        simp at h
      · rw [if_neg h2] at h
        by_cases h3 : b < 0xE0
        · rw [if_pos h3] at h
          cases bs with
          | nil => simp at h
          | cons b1 bs1 =>
            dsimp only at h
            by_cases h4 : 0x80 ≤ b1 ∧ b1 < 0xC0
            · rw [if_pos h4] at h
              simp only [Option.some.injEq, Prod.mk.injEq] at h
              refine ⟨[b, b1], by simp [h.2], by simp, fun hlt => ?_⟩
              exfalso
              omega
            · rw [if_neg h4] at h
              simp at h
        · rw [if_neg h3] at h
          by_cases h5 : b < 0xF0
          · rw [if_pos h5] at h
            match bs with
            | [] => simp at h
            | [b1] => simp at h
            | b1 :: b2 :: bs1 =>
              dsimp only at h
              by_cases h6 : 0x80 ≤ b1 ∧ b1 < 0xC0 ∧ 0x80 ≤ b2 ∧ b2 < 0xC0
              · rw [if_pos h6] at h
                by_cases h7 : 0x800 ≤ (b - 0xE0) * 0x1000 + (b1 - 0x80) * 0x40 + (b2 - 0x80) ∧
                    ¬ (0xD800 ≤ (b - 0xE0) * 0x1000 + (b1 - 0x80) * 0x40 + (b2 - 0x80) ∧
                      (b - 0xE0) * 0x1000 + (b1 - 0x80) * 0x40 + (b2 - 0x80) ≤ 0xDFFF)
                · rw [if_pos h7] at h
                  simp only [Option.some.injEq, Prod.mk.injEq] at h
                  refine ⟨[b, b1, b2], by simp [h.2], by simp, fun hlt => ?_⟩
                  exfalso
                  omega
                · rw [if_neg h7] at h
                  simp at h
              · rw [if_neg h6] at h
                simp at h
          · rw [if_neg h5] at h
            by_cases h8 : b < 0xF5
            · rw [if_pos h8] at h
              match bs with
              | [] => simp at h
              | [b1] => simp at h
              | [b1, b2] => simp at h
              | b1 :: b2 :: b3 :: bs1 =>
                dsimp only at h
                by_cases h9 : 0x80 ≤ b1 ∧ b1 < 0xC0 ∧ 0x80 ≤ b2 ∧ b2 < 0xC0 ∧
                    0x80 ≤ b3 ∧ b3 < 0xC0
                · rw [if_pos h9] at h
                  by_cases h10 : 0x10000 ≤ (b - 0xF0) * 0x40000 + (b1 - 0x80) * 0x1000 +
                      (b2 - 0x80) * 0x40 + (b3 - 0x80) ∧
                      (b - 0xF0) * 0x40000 + (b1 - 0x80) * 0x1000 +
                      (b2 - 0x80) * 0x40 + (b3 - 0x80) ≤ 0x10FFFF
                  · rw [if_pos h10] at h
                    simp only [Option.some.injEq, Prod.mk.injEq] at h
                    refine ⟨[b, b1, b2, b3], by simp [h.2], by simp, fun hlt => ?_⟩
                    exfalso
                    omega
                  · rw [if_neg h10] at h
                    simp at h
                · rw [if_neg h9] at h
                  simp at h
            · rw [if_neg h8] at h
              simp at h

theorem utf8DecodeF_mem :
    ∀ (fuel : Nat) (l line : List Nat) (c : Nat),
      utf8DecodeF fuel l = some line → c < 0x80 → c ∈ line → c ∈ l := by
  intro fuel
  induction fuel with
  | zero =>
    intro l line c h hc hm
    by_cases hl : l = []
    · rw [hl] at h
      simp [utf8DecodeF] at h
      subst h
      simp at hm
    · simp [utf8DecodeF, hl] at h
  | succ fuel ih =>
    intro l line c h hc hm
    cases l with
    | nil =>
      simp [utf8DecodeF] at h
      subst h
      simp at hm
    | cons b bs =>
      simp only [utf8DecodeF] at h
      cases hst : utf8Step (b :: bs) with
      | none => rw [hst] at h; simp at h
      | some pr =>
        rcases pr with ⟨cp, rest⟩
        rw [hst] at h
        dsimp only at h
        cases hd : utf8DecodeF fuel rest with
        | none => rw [hd] at h; simp at h
        | some cps =>
          rw [hd] at h
          simp only [Option.map_some', Option.some.injEq] at h
          subst h
          obtain ⟨pre, hl, hpre, hascii⟩ := utf8Step_decomp hst
          rcases List.mem_cons.mp hm with hcb | hcc
          · subst hcb
            have : pre = [c] := hascii hc
            rw [hl, this]
            simp
          · have := ih rest cps c hd hc hcc
            rw [hl]
            exact List.mem_append_right _ this

theorem utf8Decode_mem {lb line : List Nat} {c : Nat}
    (h : utf8Decode lb = some line) (hc : c < 0x80) (hm : c ∈ line) : c ∈ lb :=
  utf8DecodeF_mem lb.length lb line c h hc hm

theorem finishRecord_append {v : List Nat} {hdr : Hdr} {n : Nat} {s : List Nat}
    {rec : WarcRecord} (h : finishRecord v hdr n s = (.ok rec, [])) (t : List Nat) :
    finishRecord v hdr n (s ++ t) = (.ok rec, t) := by
  unfold finishRecord at h ⊢
  by_cases h1 : n ≤ s.length
  · rw [if_pos h1] at h
    by_cases h2 : 4 ≤ (s.drop n).length
    · rw [if_pos h2] at h
      by_cases h3 : (s.drop n).take 4 = [13, 10, 13, 10]
      · rw [if_pos h3] at h
        have hrec : rec = ⟨v, hdr, s.take n⟩ := by
          have := congrArg Prod.fst h
          simpa using this.symm
        have hleft : (s.drop n).drop 4 = [] := by
          have := congrArg Prod.snd h
          simpa using this
        have h1' : n ≤ (s ++ t).length := by
          rw [List.length_append]; omega
        rw [if_pos h1', List.drop_append_of_le_length h1]
        have h2' : 4 ≤ (s.drop n ++ t).length := by
          rw [List.length_append]; omega
        rw [if_pos h2', List.take_append_of_le_length (show 4 ≤ (s.drop n).length by omega)]
        rw [if_pos h3, List.take_append_of_le_length h1]
        rw [List.drop_append_of_le_length (show 4 ≤ (s.drop n).length by omega), hleft, hrec]
        simp
      · rw [if_neg h3] at h
        simp at h
    · rw [if_neg h2] at h
      simp at h
  · rw [if_neg h1] at h
    simp at h

theorem parseHeaders_append :
    ∀ (m : Nat) (s : List Nat) (h0 hdr : Hdr) (r : List Nat), s.length ≤ m →
      parseHeaders s h0 = (.ok hdr, r) → ∀ t, parseHeaders (s ++ t) h0 = (.ok hdr, r ++ t) := by
  intro m
  induction m with
  | zero =>
    intro s h0 hdr r hm h t
    have hs : s = [] := List.length_eq_zero.mp (Nat.le_zero.mp hm)
    subst hs
    rw [parseHeaders_nil] at h
    simp at h
  | succ m ih =>
    intro s h0 hdr r hm h t
    rw [parseHeaders_eq] at h
    cases hdec : utf8Decode (splitLine s).1 with
    | none => rw [hdec] at h; simp at h
    | some line =>
      rw [hdec] at h
      dsimp only at h
      by_cases hblank : line = [13, 10] ∨ line = [10]
      · rw [if_pos hblank] at h
        have hhdr : hdr = h0 := by
          have := congrArg Prod.fst h
          simpa using this.symm
        have hr : r = (splitLine s).2 := by
          have := congrArg Prod.snd h
          simpa using this.symm
        have h10line : (10 : Nat) ∈ line := by
          rcases hblank with hb | hb <;> simp [hb]
        have h10 : (10 : Nat) ∈ (splitLine s).1 := utf8Decode_mem hdec (by omega) h10line
        have hext := @splitLine_extend s (splitLine s).1 (splitLine s).2 rfl h10 t
        rw [parseHeaders_eq, hext]
        dsimp only
        rw [hdec]
        dsimp only
        rw [if_pos hblank, hhdr, hr]
      · rw [if_neg hblank] at h
        by_cases hc : (58 : Nat) ∈ rtrimCps line
        · rw [if_pos hc] at h
          have hlb : (splitLine s).1 ≠ [] := by
            intro hnil
            rw [hnil] at hdec
            have := utf8Decode_nil_inv hdec
            subst this
            simp [rtrimCps] at hc
          by_cases h10 : (10 : Nat) ∈ (splitLine s).1
          · have hext := @splitLine_extend s (splitLine s).1 (splitLine s).2 rfl h10 t
            rw [parseHeaders_eq, hext]
            dsimp only
            rw [hdec]
            dsimp only
            rw [if_neg hblank, if_pos hc]
            have hlt := splitLine_snd_lt hlb
            exact ih (splitLine s).2 _ hdr r (by omega) h t
          · obtain ⟨hrest, _⟩ := @splitLine_no10 s (splitLine s).1 (splitLine s).2 rfl h10
            rw [hrest, parseHeaders_nil] at h
            simp at h
        · rw [if_neg hc] at h
          simp at h

theorem afterVersion_append {v : List Nat} {s : List Nat} {rec : WarcRecord}
    (h : afterVersion v s = (.ok rec, [])) (t : List Nat) :
    afterVersion v (s ++ t) = (.ok rec, t) := by
  unfold afterVersion at h ⊢
  cases hph : parseHeaders s [] with
  | mk res rest =>
    cases res with
    | error e => rw [hph] at h; simp at h
    | ok hdr =>
      rw [hph] at h
      dsimp only at h
      cases hget : hdrGet hdr contentLengthKey with
      | none => rw [hget] at h; simp at h
      | some cl =>
        rw [hget] at h
        dsimp only at h
        cases hn : parseUsize cl with
        | none => rw [hn] at h; simp at h
        | some n =>
          rw [hn] at h
          dsimp only at h
          have happ := parseHeaders_append s.length s [] hdr rest (le_refl _) hph t
          rw [happ]
          dsimp only
          rw [hget]
          dsimp only
          rw [hn]
          exact finishRecord_append h t

theorem parse_eq (s : List Nat) :
    parse s =
      match utf8Decode (splitLine s).1 with
      | none => (.error .ioErr, (splitLine s).2)
      | some version =>
        if version = [] then (.error .eof, (splitLine s).2)
        else if startsWith warcVersionMarker (rtrimCps version) then
          afterVersion (rtrimCps version) (splitLine s).2
        else (.error (.malformed "Unknown WARC version"), (splitLine s).2) := rfl

theorem parse_append {s : List Nat} {rec : WarcRecord}
    (h : parse s = (.ok rec, [])) (t : List Nat) :
    parse (s ++ t) = (.ok rec, t) := by
  rw [parse_eq] at h
  cases hdec : utf8Decode (splitLine s).1 with
  | none => rw [hdec] at h; simp at h
  | some version =>
    rw [hdec] at h
    dsimp only at h
    by_cases hv : version = []
    · rw [if_pos hv] at h
      simp at h
    · rw [if_neg hv] at h
      by_cases hw : startsWith warcVersionMarker (rtrimCps version)
      · rw [if_pos hw] at h
        by_cases h10 : (10 : Nat) ∈ (splitLine s).1
        · have hext := @splitLine_extend s (splitLine s).1 (splitLine s).2 rfl h10 t
          rw [parse_eq, hext]
          dsimp only
          rw [hdec]
          dsimp only
          rw [if_neg hv, if_pos hw]
          exact afterVersion_append h t
        · obtain ⟨hrest, _⟩ := @splitLine_no10 s (splitLine s).1 (splitLine s).2 rfl h10
          rw [hrest] at h
          unfold afterVersion at h
          rw [parseHeaders_nil] at h
          simp at h
      · rw [if_neg hw] at h
        simp at h

/-- One chunk of input parses to one record, consuming the chunk exactly. -/
def ParsesTo (chunk : List Nat) (rec : WarcRecord) : Prop :=
  parse chunk = (.ok rec, [])

theorem parse_nil : parse [] = (.error .eof, []) := rfl

theorem readerRun_join :
    ∀ {chunks : List (List Nat)} {recs : List WarcRecord},
      List.Forall₂ ParsesTo chunks recs → ∀ fuel, chunks.length < fuel →
      readerRun fuel ⟨chunks.flatten, true⟩ = recs.map Except.ok := by
  intro chunks recs hf
  induction hf with
  | nil =>
    intro fuel hfuel
    obtain ⟨k, rfl⟩ : ∃ k, fuel = k + 1 := ⟨fuel - 1, by omega⟩
    simp [readerRun, readerNext, parse_nil]
  | @cons c rec cs recs' hpt hrest ih =>
    intro fuel hfuel
    obtain ⟨k, rfl⟩ : ∃ k, fuel = k + 1 := ⟨fuel - 1, by omega⟩
    have hp := parse_append hpt cs.flatten
    simp only [List.flatten_cons, readerRun, readerNext]
    rw [if_neg (by simp)]
    rw [hp]
    simp only [List.map_cons]
    have := ih k (by simpa using Nat.lt_of_succ_lt_succ hfuel)
    rw [this]

theorem finishRecord_ok_inv {v : List Nat} {hdr : Hdr} {n : Nat} {s leftover : List Nat}
    {r : WarcRecord} (h : finishRecord v hdr n s = (.ok r, leftover)) :
    n ≤ s.length ∧ 4 ≤ (s.drop n).length ∧ (s.drop n).take 4 = [13, 10, 13, 10] ∧
      r = ⟨v, hdr, s.take n⟩ ∧ leftover = (s.drop n).drop 4 := by
  unfold finishRecord at h
  by_cases h1 : n ≤ s.length
  · rw [if_pos h1] at h
    by_cases h2 : 4 ≤ (s.drop n).length
    · rw [if_pos h2] at h
      by_cases h3 : (s.drop n).take 4 = [13, 10, 13, 10]
      · rw [if_pos h3] at h
        have hr : r = ⟨v, hdr, s.take n⟩ := by
          have := congrArg Prod.fst h
          simpa using this.symm
        have hl : leftover = (s.drop n).drop 4 := by
          have := congrArg Prod.snd h
          simpa using this.symm
        exact ⟨h1, h2, h3, hr, hl⟩
      · rw [if_neg h3] at h
        simp at h
    · rw [if_neg h2] at h
      simp at h
  · rw [if_neg h1] at h
    simp at h

theorem parse_ok_inv {s leftover : List Nat} {r : WarcRecord}
    (h : parse s = (.ok r, leftover)) :
    ∃ version rest2 v n,
      utf8Decode (splitLine s).1 = some version ∧ version ≠ [] ∧
      startsWith warcVersionMarker (rtrimCps version) = true ∧
      r.version = rtrimCps version ∧
      parseHeaders (splitLine s).2 [] = (.ok r.header, rest2) ∧
      hdrGet r.header contentLengthKey = some v ∧
      parseUsize v = some n ∧
      n ≤ rest2.length ∧ 4 ≤ (rest2.drop n).length ∧
      (rest2.drop n).take 4 = [13, 10, 13, 10] ∧
      r.content = rest2.take n ∧
      leftover = (rest2.drop n).drop 4 := by
  rw [parse_eq] at h
  cases hdec : utf8Decode (splitLine s).1 with
  | none => rw [hdec] at h; simp at h
  | some version =>
    rw [hdec] at h
    dsimp only at h
    by_cases hv : version = []
    · rw [if_pos hv] at h
      simp at h
    · rw [if_neg hv] at h
      by_cases hw : startsWith warcVersionMarker (rtrimCps version)
      · rw [if_pos hw] at h
        unfold afterVersion at h
        cases hph : parseHeaders (splitLine s).2 [] with
        | mk res rest2 =>
          cases res with
          | error e => rw [hph] at h; simp at h
          | ok hdr =>
            rw [hph] at h
            dsimp only at h
            cases hget : hdrGet hdr contentLengthKey with
            | none => rw [hget] at h; simp at h
            | some cl =>
              rw [hget] at h
              dsimp only at h
              cases hn : parseUsize cl with
              | none => rw [hn] at h; simp at h
              | some n =>
                rw [hn] at h
                dsimp only at h
                obtain ⟨h1, h2, h3, hr, hl⟩ := finishRecord_ok_inv h
                refine ⟨version, rest2, cl, n, rfl, hv, by simpa using hw, ?_, ?_, ?_, hn,
                  h1, h2, h3, ?_, hl⟩
                · rw [hr]
                · rw [hr]
                · rw [hr]; exact hget
                · rw [hr]
      · rw [if_neg hw] at h
        simp at h

theorem rtrimCps_append_ws {l : List Nat} {c : Nat} (h : isRustWhitespace c = true) :
    rtrimCps (l ++ [c]) = rtrimCps l := by
  unfold rtrimCps
  rw [List.reverse_append]
  simp [List.dropWhile_cons, h]

theorem rtrimCps_append_not_ws {l : List Nat} {c : Nat} (h : isRustWhitespace c = false) :
    rtrimCps (l ++ [c]) = l ++ [c] := by
  unfold rtrimCps
  rw [List.reverse_append]
  simp [List.dropWhile_cons, h]

theorem rtrimCps_fix {x : List Nat} (h : x ≠ [])
    (hl : isRustWhitespace (x.getLast h) = false) : rtrimCps x = x := by
  rcases hrev : x.reverse with _ | ⟨c, t⟩
  · exact absurd (by simpa using congrArg List.reverse hrev) h
  · have hx : x = t.reverse ++ [c] := by
      have := congrArg List.reverse hrev
      simpa using this
    subst hx
    rw [List.getLast_concat] at hl
    exact rtrimCps_append_not_ws hl

theorem rtrimCps_decomp {x : List Nat} (h : rtrimCps x ≠ []) :
    ∃ y c, rtrimCps x = y ++ [c] ∧ isRustWhitespace c = false := by
  unfold rtrimCps at h ⊢
  rcases hd : x.reverse.dropWhile isRustWhitespace with _ | ⟨c, t⟩
  · rw [hd] at h
    simp at h
  · have hne : x.reverse.dropWhile isRustWhitespace ≠ [] := by rw [hd]; simp
    have hh := List.head_dropWhile_not isRustWhitespace x.reverse hne
    have hc : (x.reverse.dropWhile isRustWhitespace).head hne = c := by simp [hd]
    rw [hc] at hh
    exact ⟨t.reverse, c, by simp [hd], hh⟩

theorem ltrimCps_append_not_ws {c : Nat} (hc : isRustWhitespace c = false) :
    ∀ y : List Nat, ∃ z, ltrimCps (y ++ [c]) = z ++ [c] := by
  intro y
  induction y with
  | nil => exact ⟨[], by simp [ltrimCps, List.dropWhile_cons, hc]⟩
  | cons d y' ih =>
    by_cases hd : isRustWhitespace d
    · obtain ⟨z, hz⟩ := ih
      exact ⟨z, by simpa [ltrimCps, List.dropWhile_cons, hd] using hz⟩
    · exact ⟨d :: (y' ++ [c].dropLast), by
        simp [ltrimCps, List.dropWhile_cons, hd]⟩

theorem ltrimCps_idem (l : List Nat) : ltrimCps (ltrimCps l) = ltrimCps l :=
  List.dropWhile_idempotent _ _

theorem trimCps_idem (l : List Nat) : trimCps (trimCps l) = trimCps l := by
  unfold trimCps
  by_cases hb : ltrimCps (rtrimCps l) = []
  · rw [hb]
    rfl
  · have ha : rtrimCps l ≠ [] := by
      intro hnil
      rw [hnil] at hb
      exact hb rfl
    obtain ⟨y, c, hy, hc⟩ := rtrimCps_decomp ha
    rw [hy]
    obtain ⟨z, hz⟩ := ltrimCps_append_not_ws hc y
    rw [hz, rtrimCps_append_not_ws hc, ← hz, ltrimCps_idem]

theorem find?_filter_ne (m : Hdr) (k k' : CaseString) (hk : k ≠ k') :
    List.find? (fun p => p.1 = k) (List.filter (fun p => p.1 ≠ k') m) =
      List.find? (fun p => p.1 = k) m := by
  induction m with
  | nil => rfl
  | cons e m' ih =>
    rw [List.filter_cons]
    by_cases he2 : e.1 = k'
    · have hq : (decide (e.1 ≠ k') : Bool) = false := by simp [he2]
      rw [hq, if_neg (by simp)]
      rw [ih, List.find?_cons]
      have hek : (decide (e.1 = k) : Bool) = false := by
        simp only [decide_eq_false_iff_not]
        intro h
        apply hk
        rw [← h, he2]
      rw [hek]
    · have hq : (decide (e.1 ≠ k') : Bool) = true := by simp [he2]
      rw [hq, if_pos rfl]
      rw [List.find?_cons, List.find?_cons]
      cases hek : (decide (e.1 = k) : Bool) with
      | false => exact ih
      | true => rfl

theorem hdrGet_insert (m : Hdr) (k k' : CaseString) (v' : List Nat) :
    hdrGet (hdrInsert m k' v') k = if k' = k then some v' else hdrGet m k := by
  unfold hdrGet hdrInsert
  by_cases hk : k' = k
  · subst hk
    simp [List.find?_cons]
  · rw [if_neg hk]
    have hk2 : k ≠ k' := fun h => hk h.symm
    rw [List.find?_cons]
    have : (decide (k' = k)) = false := by
      simp [hk]
    rw [this]
    rw [find?_filter_ne m k k' hk2]

theorem parseHeaders_values :
    ∀ (m : Nat) (s : List Nat) (h0 : Hdr), s.length ≤ m →
      (∀ k v, hdrGet h0 k = some v → trimCps v = v) →
      ∀ hdr r, parseHeaders s h0 = (.ok hdr, r) →
      ∀ k v, hdrGet hdr k = some v → trimCps v = v := by
  intro m
  induction m with
  | zero =>
    intro s h0 hm hinv hdr r hph
    have hs : s = [] := List.length_eq_zero.mp (Nat.le_zero.mp hm)
    subst hs
    rw [parseHeaders_nil] at hph
    simp at hph
  | succ m ih =>
    intro s h0 hm hinv hdr r hph k v hget
    rw [parseHeaders_eq] at hph
    cases hdec : utf8Decode (splitLine s).1 with
    | none => rw [hdec] at hph; simp at hph
    | some line =>
      rw [hdec] at hph
      dsimp only at hph
      by_cases hblank : line = [13, 10] ∨ line = [10]
      · rw [if_pos hblank] at hph
        have hhdr : hdr = h0 := by
          have := congrArg Prod.fst hph
          simpa using this.symm
        subst hhdr
        exact hinv k v hget
      · rw [if_neg hblank] at hph
        by_cases hc : (58 : Nat) ∈ rtrimCps line
        · rw [if_pos hc] at hph
          have hlb : (splitLine s).1 ≠ [] := by
            intro hnil
            rw [hnil] at hdec
            have := utf8Decode_nil_inv hdec
            subst this
            simp [rtrimCps] at hc
          have hlt := splitLine_snd_lt hlb
          refine ih (splitLine s).2 _ (by omega) ?_ hdr r hph k v hget
          intro k2 v2 hget2
          rw [hdrGet_insert] at hget2
          by_cases hk2 : CaseString.fromText
              (rtrimCps ((rtrimCps line).takeWhile (· ≠ 58))) = k2
          · rw [if_pos hk2] at hget2
            have hv2 : v2 = trimCps ((rtrimCps line).dropWhile (· ≠ 58)).tail :=
              (Option.some.inj hget2).symm
            rw [hv2]
            exact trimCps_idem _
          · rw [if_neg hk2] at hget2
            exact hinv k2 v2 hget2
        · rw [if_neg hc] at hph
          simp at hph

/-- The spec's notion of ASCII-case-insensitive equality of two code
points: equal, or the same Latin letter in the two cases. -/
def asciiEqv (c d : Nat) : Prop :=
  c = d ∨ (65 ≤ c ∧ c ≤ 90 ∧ d = c + 32) ∨ (65 ≤ d ∧ d ≤ 90 ∧ c = d + 32)

instance : ∀ c d, Decidable (asciiEqv c d) := fun c d => by
  unfold asciiEqv
  infer_instance

/-- The spec's wording in the Content-Length rule: a string of one or
more ASCII decimal digits (a non-negative decimal integer). -/
def isDecimalNat (cps : List Nat) : Bool :=
  (decide (cps ≠ [])) && cps.all (fun c => 48 ≤ c && c ≤ 57)

/-- The integer value of a string of ASCII decimal digits. -/
def decimalVal (cps : List Nat) : Nat :=
  cps.foldl (fun acc c => acc * 10 + (c - 48)) 0

/-- Bytes of the spec's scenario S1:
`WARC/1.1\r\nWARC-Type: warcinfo\r\nContent-Length: 4\r\n\r\ntest\r\n\r\n`. -/
def s1Bytes : List Nat := [87, 65, 82, 67, 47, 49, 46, 49, 13, 10, 87, 65, 82, 67, 45, 84, 121, 112, 101, 58, 32, 119, 97, 114, 99, 105, 110, 102, 111, 13, 10, 67, 111, 110, 116, 101, 110, 116, 45, 76, 101, 110, 103, 116, 104, 58, 32, 52, 13, 10, 13, 10, 116, 101, 115, 116, 13, 10, 13, 10]

/-- The record parsed from `s1Bytes`. -/
def s1Rec : WarcRecord :=
  ⟨[87, 65, 82, 67, 47, 49, 46, 49],
    [(contentLengthKey, [52]),
     (⟨[119, 97, 114, 99, 45, 116, 121, 112, 101]⟩, [119, 97, 114, 99, 105, 110, 102, 111])],
    [116, 101, 115, 116]⟩

/-- Bytes of the spec's scenario S2's second record:
`WARC/1.1\r\nWARC-Type: response\r\nContent-Length: 3\r\n\r\nabc\r\n\r\n`. -/
def s2Bytes : List Nat := [87, 65, 82, 67, 47, 49, 46, 49, 13, 10, 87, 65, 82, 67, 45, 84, 121, 112, 101, 58, 32, 114, 101, 115, 112, 111, 110, 115, 101, 13, 10, 67, 111, 110, 116, 101, 110, 116, 45, 76, 101, 110, 103, 116, 104, 58, 32, 51, 13, 10, 13, 10, 97, 98, 99, 13, 10, 13, 10]

/-- The record parsed from `s2Bytes`. -/
def s2Rec : WarcRecord :=
  ⟨[87, 65, 82, 67, 47, 49, 46, 49],
    [(contentLengthKey, [51]),
     (⟨[119, 97, 114, 99, 45, 116, 121, 112, 101]⟩, [114, 101, 115, 112, 111, 110, 115, 101])],
    [97, 98, 99]⟩

/-- A record whose header line `X: v<U+00A0>` carries a trailing
no-break space (bytes `194, 160`) before the CRLF:
`WARC/1.1\r\nContent-Length: 0\r\nX: v\xC2\xA0\r\n\r\n\r\n\r\n`. -/
def nbspBytes : List Nat := [87, 65, 82, 67, 47, 49, 46, 49, 13, 10, 67, 111, 110, 116, 101, 110, 116, 45, 76, 101, 110, 103, 116, 104, 58, 32, 48, 13, 10, 88, 58, 32, 118, 194, 160, 13, 10, 13, 10, 13, 10, 13, 10]

/-- A record whose Content-Length value is `18446744073709551616`
(that is, `2^64`, one past `usize::MAX`). -/
def hugeClBytes : List Nat := [87, 65, 82, 67, 47, 49, 46, 49, 13, 10, 67, 111, 110, 116, 101, 110, 116, 45, 76, 101, 110, 103, 116, 104, 58, 32, 49, 56, 52, 52, 54, 55, 52, 52, 48, 55, 51, 55, 48, 57, 53, 53, 49, 54, 49, 54, 13, 10, 13, 10]

/-- The digit string `18446744073709551616` (the value `2^64`). -/
def hugeClDigits : List Nat := [49, 56, 52, 52, 54, 55, 52, 52, 48, 55, 51, 55, 48, 57, 53, 53, 49, 54, 49, 54]

/-- A record with bare-LF line terminators but a strict CRLFCRLF
trailing separator: `WARC/1.1\nContent-Length: 0\n\n\r\n\r\n`. -/
def bareLfBytes : List Nat := [87, 65, 82, 67, 47, 49, 46, 49, 10, 67, 111, 110, 116, 101, 110, 116, 45, 76, 101, 110, 103, 116, 104, 58, 32, 48, 10, 10, 13, 10, 13, 10]

/-- A record whose trailing separator is four bare LFs instead of
CRLFCRLF: `WARC/1.1\r\nContent-Length: 0\r\n\r\n\n\n\n\n`. -/
def lfSepBytes : List Nat := [87, 65, 82, 67, 47, 49, 46, 49, 13, 10, 67, 111, 110, 116, 101, 110, 116, 45, 76, 101, 110, 103, 116, 104, 58, 32, 48, 13, 10, 13, 10, 10, 10, 10, 10]

/-- A record whose version line is the bare `WARC/1.` with no minor
digit: `WARC/1.\r\nContent-Length: 0\r\n\r\n\r\n\r\n`. -/
def bareVersionBytes : List Nat := [87, 65, 82, 67, 47, 49, 46, 13, 10, 67, 111, 110, 116, 101, 110, 116, 45, 76, 101, 110, 103, 116, 104, 58, 32, 48, 13, 10, 13, 10, 13, 10, 13, 10]

/-- C1. For every input byte stream consisting of N syntactically
valid WARC records concatenated with no trailing bytes (chunks each of
which `parse` turns into a record consuming the chunk exactly),
iterating the `WarcReader` to exhaustion yields exactly N `Ok(record)`
items in byte-stream order followed by end-of-sequence, and never an
error: with any fuel exceeding N, the run is exactly the list of the N
records, all `Ok`. -/
theorem c1_record_count_conservation
    (chunks : List (List Nat)) (recs : List WarcRecord)
    (h : List.Forall₂ ParsesTo chunks recs)
    (fuel : Nat) (hfuel : chunks.length < fuel) :
    readerRun fuel (WarcReader.new chunks.flatten) = recs.map Except.ok :=
  readerRun_join h fuel hfuel

/-- Witness for C1: the two-record input S1 ++ S2 yields exactly the
two records as `Ok`, then terminates, at every sufficient fuel. -/
theorem c1_record_count_conservation_witness :
    readerRun 3 (WarcReader.new (List.flatten [s1Bytes, s2Bytes])) =
      [Except.ok s1Rec, Except.ok s2Rec] := by
  have h1 : ParsesTo s1Bytes s1Rec := rfl
  have h2 : ParsesTo s2Bytes s2Rec := rfl
  exact c1_record_count_conservation [s1Bytes, s2Bytes] [s1Rec, s2Rec]
    (List.Forall₂.cons h1 (List.Forall₂.cons h2 List.Forall₂.nil)) 3 (by decide)

/-- C2. Poisoning is sticky and the error is surfaced exactly once:
the reader's `valid_state` flag starts `true`; whenever `next` yields
an error the post-state flag is `false`; a poisoned reader yields
end-of-sequence with its state unchanged (the parser is not invoked in
that branch); the flag never becomes `true` again; iterating `next`
any number of times from a poisoned reader leaves it unchanged. -/
theorem c2_poisoning_sticky :
    (∀ s, (WarcReader.new s).valid_state = true) ∧
    (∀ r e r', readerNext r = (some (.error e), r') → r'.valid_state = false) ∧
    (∀ r, r.valid_state = false → readerNext r = (none, r)) ∧
    (∀ r x r', readerNext r = (x, r') → r'.valid_state = true → r.valid_state = true) ∧
    (∀ (n : Nat) (r : WarcReader), r.valid_state = false →
      (fun q => (readerNext q).2)^[n] r = r) := by
  have hpois : ∀ r : WarcReader, r.valid_state = false → readerNext r = (none, r) := by
    intro r h
    unfold readerNext
    rw [if_pos h]
  refine ⟨fun s => rfl, ?_, hpois, ?_, ?_⟩
  · intro r e r' h
    unfold readerNext at h
    by_cases hv : r.valid_state = false
    · rw [if_pos hv] at h
      have := congrArg Prod.fst h
      simp at this
    · rw [if_neg hv] at h
      rcases hp : parse r.read with ⟨res, rest⟩
      rw [hp] at h
      cases res with
      | ok item =>
        dsimp only at h
        have := congrArg Prod.fst h
        simp at this
      | error e2 =>
        cases e2 with
        | eof =>
          dsimp only at h
          have := congrArg Prod.fst h
          simp at this
        | malformed msg =>
          dsimp only at h
          injection h with hfst hsnd
          rw [← hsnd]
        | ioErr =>
          dsimp only at h
          injection h with hfst hsnd
          rw [← hsnd]
  · intro r x r' h htrue
    by_cases hv : r.valid_state = false
    · rw [hpois r hv] at h
      injection h with hfst hsnd
      rw [← hsnd] at htrue
      rw [hv] at htrue
      exact absurd htrue (by simp)
    · simpa using hv
  · intro n
    induction n with
    | zero => intro r h; rfl
    | succ n ih =>
      intro r h
      rw [Function.iterate_succ_apply]
      have hstep : (readerNext r).2 = r := by rw [hpois r h]
      rw [hstep]
      exact ih r h

/-- Witness for C2: a concrete poisoned reader yields `none` with its
state unchanged, the fresh reader's flag is `true`, and a reader that
yields an error on a malformed input is poisoned afterwards. -/
theorem c2_poisoning_sticky_witness :
    readerNext ⟨[13, 10], false⟩ = (none, ⟨[13, 10], false⟩) ∧
    (WarcReader.new s1Bytes).valid_state = true ∧
    (fun q => (readerNext q).2)^[5] ⟨[13, 10], false⟩ = ⟨[13, 10], false⟩ ∧
    (⟨[13, 10], false⟩ : WarcReader).valid_state = false := by
  refine ⟨c2_poisoning_sticky.2.2.1 ⟨[13, 10], false⟩ rfl, c2_poisoning_sticky.1 s1Bytes,
    c2_poisoning_sticky.2.2.2.2 5 ⟨[13, 10], false⟩ rfl, ?_⟩
  exact c2_poisoning_sticky.2.1 ⟨[72, 13, 10], true⟩ (.malformed "Unknown WARC version")
    ⟨[], false⟩ rfl

/-- C5. The `eof` parser result never reaches the caller as an
error: reading zero bytes at a fresh record boundary (the line read
returns no bytes, which happens exactly on the empty stream) makes
`parse` return `eof`; the iterator converts an `eof` parse into
end-of-sequence; and any error actually yielded by `next` is never
`eof`. -/
theorem c5_eof_not_surfaced :
    (∀ s, (splitLine s).1 = [] → parse s = (.error .eof, [])) ∧
    (∀ s rest, parse s = (.error .eof, rest) →
      readerNext ⟨s, true⟩ = (none, ⟨rest, true⟩)) ∧
    (∀ r x r' e, readerNext r = (some x, r') → x = .error e → e ≠ .eof) := by
  refine ⟨?_, ?_, ?_⟩
  · intro s hs
    have : s = [] := by
      by_contra hne
      exact splitLine_fst_ne_nil hne hs
    rw [this]
    exact parse_nil
  · intro s rest h
    unfold readerNext
    rw [if_neg (by simp)]
    rw [h]
  · intro r x r' e h hx
    subst hx
    unfold readerNext at h
    by_cases hv : r.valid_state = false
    · rw [if_pos hv] at h
      have := congrArg Prod.fst h
      simp at this
    · rw [if_neg hv] at h
      rcases hp : parse r.read with ⟨res, rest⟩
      rw [hp] at h
      cases res with
      | ok item =>
        dsimp only at h
        injection h with hfst hsnd
        intro hcon
        rw [hcon] at hfst
        simp at hfst
      | error e2 =>
        cases e2 with
        | eof =>
          dsimp only at h
          injection h with hfst hsnd
          simp at hfst
        | malformed msg =>
          dsimp only at h
          injection h with hfst hsnd
          intro hcon
          rw [hcon] at hfst
          simp at hfst
        | ioErr =>
          dsimp only at h
          injection h with hfst hsnd
          intro hcon
          rw [hcon] at hfst
          simp at hfst

/-- Witness for C5: the empty stream parses to `eof` and the iterator
yields end-of-sequence there. -/
theorem c5_eof_not_surfaced_witness :
    parse [] = (.error .eof, []) ∧ readerNext ⟨[], true⟩ = (none, ⟨[], true⟩) :=
  ⟨c5_eof_not_surfaced.1 [] rfl, c5_eof_not_surfaced.2.1 [] [] (c5_eof_not_surfaced.1 [] rfl)⟩

/-- C10. If the byte source is exhausted inside the header block —
after a valid version line but before the blank line ending the
headers — the line read returns no bytes (decoded as the empty
string), which lacks a colon, so the parser returns
`Malformed("Invalid header field")`: neither an I/O error nor `eof`.
Shown on the header loop for every accumulated map, and end-to-end on
the input consisting of just `WARC/1.1\r\n`. -/
theorem c10_header_eof_invalid_header (hdr : Hdr) :
    splitLine [] = ([], []) ∧
    utf8Decode [] = some [] ∧
    parseHeaders [] hdr = (.error (.malformed "Invalid header field"), []) ∧
    parse [87, 65, 82, 67, 47, 49, 46, 49, 13, 10] =
      (.error (.malformed "Invalid header field"), []) :=
  ⟨rfl, rfl, parseHeaders_nil hdr, rfl⟩

theorem lowerAsciiChar_eq_iff {c d : Nat} :
    lowerAsciiChar c = lowerAsciiChar d ↔ asciiEqv c d := by
  unfold lowerAsciiChar asciiEqv
  by_cases h1 : 65 ≤ c ∧ c ≤ 90 <;> by_cases h2 : 65 ≤ d ∧ d ≤ 90 <;>
    simp [h1, h2] <;> omega

theorem lowerAscii_eq_iff {a b : List Nat} :
    lowerAscii a = lowerAscii b ↔ List.Forall₂ asciiEqv a b := by
  unfold lowerAscii
  induction a generalizing b with
  | nil =>
    cases b with
    | nil => simp
    | cons d bs => simp
  | cons c as ih =>
    cases b with
    | nil => simp
    | cons d bs =>
      simp only [List.map_cons, List.cons.injEq, List.forall₂_cons]
      rw [lowerAsciiChar_eq_iff, ih]

/-- C4. Header lookup is ASCII-case-insensitive: two `CaseString`s
built by `From<String>` are equal exactly when the original texts are
ASCII-case-insensitively equal (pointwise `asciiEqv`), and looking up
any header map with `CaseString`s built from two case permutations of
the same name gives the same result. -/
theorem c4_case_insensitive_keys (a b : List Nat) :
    (CaseString.fromText a = CaseString.fromText b ↔ List.Forall₂ asciiEqv a b) ∧
    (List.Forall₂ asciiEqv a b →
      ∀ m : Hdr, hdrGet m (CaseString.fromText a) = hdrGet m (CaseString.fromText b)) := by
  have hiff : CaseString.fromText a = CaseString.fromText b ↔ List.Forall₂ asciiEqv a b := by
    unfold CaseString.fromText
    rw [CaseString.mk.injEq]
    exact lowerAscii_eq_iff
  exact ⟨hiff, fun hf m => by rw [hiff.mpr hf]⟩

/-- Witness for C4: `"CL"` and `"cl"` give equal `CaseString`s and the
same lookup result in a concrete header map. -/
theorem c4_case_insensitive_keys_witness :
    (CaseString.fromText [67, 76] = CaseString.fromText [99, 108]) ∧
    hdrGet [(CaseString.fromText [99, 108], [52])] (CaseString.fromText [67, 76]) =
      hdrGet [(CaseString.fromText [99, 108], [52])] (CaseString.fromText [99, 108]) := by
  have hf : List.Forall₂ asciiEqv [67, 76] [99, 108] :=
    List.Forall₂.cons (Or.inr (Or.inl (by omega)))
      (List.Forall₂.cons (Or.inr (Or.inl (by omega))) List.Forall₂.nil)
  exact ⟨(c4_case_insensitive_keys [67, 76] [99, 108]).1.mpr hf,
    (c4_case_insensitive_keys [67, 76] [99, 108]).2 hf _⟩

/-- C3. For every successfully parsed record, the yielded content
is exactly the `Content-Length` bytes of the input immediately
following the blank line that ends the header block: the stream left
by the header phase is content, then `CR LF CR LF`, then the leftover
stream, the content is its `n`-byte prefix, its length equals the
integer parsed from the `Content-Length` header, and Content-Length 0
yields empty content. -/
theorem c3_byte_exact_content (s leftover : List Nat) (r : WarcRecord)
    (h : parse s = (.ok r, leftover)) :
    ∃ rest2 v n,
      parseHeaders (splitLine s).2 [] = (.ok r.header, rest2) ∧
      hdrGet r.header contentLengthKey = some v ∧
      parseUsize v = some n ∧
      r.content = rest2.take n ∧
      rest2 = r.content ++ [13, 10, 13, 10] ++ leftover ∧
      r.content.length = n ∧
      (n = 0 → r.content = []) := by
  obtain ⟨version, rest2, v, n, hdec, hv, hw, hver, hph, hget, hn, h1, h2, h3, hcontent, hleft⟩ :=
    parse_ok_inv h
  refine ⟨rest2, v, n, hph, hget, hn, hcontent, ?_, ?_, ?_⟩
  · rw [hcontent, hleft, ← h3, List.append_assoc, List.take_append_drop,
      List.take_append_drop]
  · rw [hcontent, List.length_take]
    omega
  · intro hn0
    rw [hcontent, hn0]
    simp

/-- Witness for C3: the content of the S1 record is the four bytes
`test` immediately after the blank line, of length `4` as declared. -/
theorem c3_byte_exact_content_witness :
    ∃ rest2 v n,
      parseHeaders (splitLine s1Bytes).2 [] = (.ok s1Rec.header, rest2) ∧
      hdrGet s1Rec.header contentLengthKey = some v ∧
      parseUsize v = some n ∧
      s1Rec.content = rest2.take n ∧
      rest2 = s1Rec.content ++ [13, 10, 13, 10] ++ [] ∧
      s1Rec.content.length = n ∧
      (n = 0 → s1Rec.content = []) :=
  c3_byte_exact_content s1Bytes [] s1Rec rfl

/-- C9. Version-line check: for a non-empty first line, after
stripping trailing whitespace the parser proceeds if and only if the
line begins with the literal `WARC/1.` — otherwise it returns
`Malformed("Unknown WARC version")` — and on success the full stripped
line is stored as the record's version; the bare string `WARC/1.` with
no minor digit is accepted. -/
theorem c9_version_check (s : List Nat) (version : List Nat)
    (hdec : utf8Decode (splitLine s).1 = some version) (hv : version ≠ []) :
    (startsWith warcVersionMarker (rtrimCps version) = false →
      parse s = (.error (.malformed "Unknown WARC version"), (splitLine s).2)) ∧
    (startsWith warcVersionMarker (rtrimCps version) = true →
      parse s = afterVersion (rtrimCps version) (splitLine s).2) ∧
    (∀ r leftover, parse s = (.ok r, leftover) → r.version = rtrimCps version) ∧
    parse bareVersionBytes =
      (.ok ⟨warcVersionMarker, [(contentLengthKey, [48])], []⟩, []) := by
  refine ⟨?_, ?_, ?_, rfl⟩
  · intro hw
    rw [parse_eq, hdec]
    dsimp only
    rw [if_neg hv, if_neg (by simp [hw])]
  · intro hw
    rw [parse_eq, hdec]
    dsimp only
    rw [if_neg hv, if_pos (by simp [hw])]
  · intro r leftover hok
    obtain ⟨version', rest2, v, n, hdec', hv', hw', hver', hrest⟩ := parse_ok_inv hok
    rw [hdec] at hdec'
    have : version = version' := Option.some.inj hdec'
    rw [hver', ← this]

/-- Witness for C9: a line starting `H` is rejected as an unknown
version, and the S1 record's stored version is the stripped first
line `WARC/1.1`. -/
theorem c9_version_check_witness :
    parse [72, 13, 10] = (.error (.malformed "Unknown WARC version"), []) ∧
    s1Rec.version = rtrimCps [87, 65, 82, 67, 47, 49, 46, 49, 13, 10] := by
  constructor
  · exact (c9_version_check [72, 13, 10] [72, 13, 10] rfl (by decide)).1 rfl
  · exact (c9_version_check s1Bytes [87, 65, 82, 67, 47, 49, 46, 49, 13, 10] rfl
      (by decide)).2.2.1 s1Rec [] rfl

/-- C8. Trailing separator: after the content bytes, the parser
reads exactly four more bytes; four available bytes differing from
`CR LF CR LF` give `Malformed("No double linefeed after record
content")` (consuming exactly those four), fewer than four available
bytes give an I/O error; and bare LFs are not accepted there (an
otherwise valid record ending `\n\n\n\n` is malformed) even though bare
LF line endings are accepted in the version line and header block
(an LF-terminated record with a strict `CR LF CR LF` separator
parses). -/
theorem c8_trailing_separator (v : List Nat) (hdr : Hdr) (n : Nat) (s : List Nat)
    (hn : n ≤ s.length) :
    (4 ≤ (s.drop n).length → (s.drop n).take 4 ≠ [13, 10, 13, 10] →
      finishRecord v hdr n s =
        (.error (.malformed "No double linefeed after record content"), (s.drop n).drop 4)) ∧
    ((s.drop n).length < 4 → finishRecord v hdr n s = (.error .ioErr, [])) ∧
    parse lfSepBytes =
      (.error (.malformed "No double linefeed after record content"), []) ∧
    parse bareLfBytes =
      (.ok ⟨[87, 65, 82, 67, 47, 49, 46, 49], [(contentLengthKey, [48])], []⟩, []) := by
  refine ⟨?_, ?_, rfl, rfl⟩
  · intro h4 hne
    unfold finishRecord
    rw [if_pos hn, if_pos h4, if_neg hne]
  · intro h4
    unfold finishRecord
    rw [if_pos hn, if_neg (by omega)]

/-- Witness for C8: four wrong bytes after the content give the
malformed-separator error; a two-byte tail gives an I/O error. -/
theorem c8_trailing_separator_witness :
    finishRecord [] [] 1 [48, 65, 66, 67, 68] =
      (.error (.malformed "No double linefeed after record content"), []) ∧
    finishRecord [] [] 0 [13, 10] = (.error .ioErr, []) := by
  constructor
  · exact (c8_trailing_separator [] [] 1 [48, 65, 66, 67, 68] (by decide)).1
      (by decide) (by decide)
  · exact (c8_trailing_separator [] [] 0 [13, 10] (by decide)).2.1 (by decide)

/-- Counterexample to C7 as stated: the Content-Length value
`18446744073709551616` (that is `2^64`) is a non-negative decimal
integer in the spec's sense, yet the parser rejects the record with
`Malformed("Content-Length is not a number")` instead of using the
parsed integer as the content size, because `usize` parsing overflows. -/
theorem c7_counterexample :
    isDecimalNat hugeClDigits = true ∧
    decimalVal hugeClDigits = 2 ^ 64 ∧
    parseHeaders (splitLine hugeClBytes).2 [] =
      (.ok [(contentLengthKey, hugeClDigits)], []) ∧
    hdrGet [(contentLengthKey, hugeClDigits)] contentLengthKey = some hugeClDigits ∧
    parseUsize hugeClDigits = none ∧
    parse hugeClBytes = (.error (.malformed "Content-Length is not a number"), []) :=
  ⟨rfl, rfl, rfl, rfl, rfl, rfl⟩

/-- C7, amended. Content-Length resolution: after the header
block, a missing `content-length` key gives
`Malformed("Content-Length is missing")`; a stored value that the
`usize` parser rejects (not an optional `+` followed by one or more
ASCII digits whose value fits in 64 bits) gives
`Malformed("Content-Length is not a number")`; otherwise the parsed
integer is the exact content size handed to the content phase; and on
every digit string whose value fits in 64 bits the `usize` parser
returns exactly its decimal value. -/
theorem c7_content_length_resolution (s version : List Nat) (hdr : Hdr) (rest2 : List Nat)
    (hdec : utf8Decode (splitLine s).1 = some version) (hv : version ≠ [])
    (hw : startsWith warcVersionMarker (rtrimCps version) = true)
    (hph : parseHeaders (splitLine s).2 [] = (.ok hdr, rest2)) :
    (hdrGet hdr contentLengthKey = none →
      parse s = (.error (.malformed "Content-Length is missing"), rest2)) ∧
    (∀ v, hdrGet hdr contentLengthKey = some v → parseUsize v = none →
      parse s = (.error (.malformed "Content-Length is not a number"), rest2)) ∧
    (∀ v n, hdrGet hdr contentLengthKey = some v → parseUsize v = some n →
      parse s = finishRecord (rtrimCps version) hdr n rest2) ∧
    (∀ v, isDecimalNat v = true → decimalVal v < 2 ^ 64 →
      parseUsize v = some (decimalVal v)) := by
  have hbase : parse s = afterVersion (rtrimCps version) (splitLine s).2 := by
    rw [parse_eq, hdec]
    dsimp only
    rw [if_neg hv, if_pos (by simp [hw])]
  refine ⟨?_, ?_, ?_, ?_⟩
  · intro hget
    rw [hbase]
    unfold afterVersion
    rw [hph]
    dsimp only
    rw [hget]
  · intro v hget hnum
    rw [hbase]
    unfold afterVersion
    rw [hph]
    dsimp only
    rw [hget]
    dsimp only
    rw [hnum]
  · intro v n hget hnum
    rw [hbase]
    unfold afterVersion
    rw [hph]
    dsimp only
    rw [hget]
    dsimp only
    rw [hnum]
  · intro v hdig hlt
    cases v with
    | nil => simp [isDecimalNat] at hdig
    | cons c cs =>
      unfold isDecimalNat at hdig
      simp only [Bool.and_eq_true, List.all_cons, decide_eq_true_eq] at hdig
      obtain ⟨hne, hc, hcs⟩ := hdig
      unfold parseUsize
      have hds : (if (c :: cs).head? = some 43 then (c :: cs).tail else (c :: cs)) = c :: cs := by
        rw [if_neg]
        simp only [List.head?_cons, Option.some.injEq]
        omega
      rw [hds]
      rw [if_neg (by simp)]
      rw [if_pos (by
        simp only [List.all_cons, Bool.and_eq_true, decide_eq_true_eq]
        exact ⟨hc, hcs⟩)]
      unfold decimalVal at hlt ⊢
      rw [if_pos hlt]

/-- Witness for the amended C7: on the S1 record the stored
Content-Length value `4` is parsed and handed to the content phase as
the exact content size. -/
theorem c7_content_length_resolution_witness :
    parse s1Bytes = finishRecord [87, 65, 82, 67, 47, 49, 46, 49] s1Rec.header 4
      [116, 101, 115, 116, 13, 10, 13, 10] ∧
    parseUsize [52] = some (decimalVal [52]) := by
  constructor
  · exact (c7_content_length_resolution s1Bytes [87, 65, 82, 67, 47, 49, 46, 49, 13, 10]
      s1Rec.header [116, 101, 115, 116, 13, 10, 13, 10] rfl (by decide) (by decide)
      rfl).2.2.1 [52] 4 rfl rfl
  · exact (c7_content_length_resolution s1Bytes [87, 65, 82, 67, 47, 49, 46, 49, 13, 10]
      s1Rec.header [116, 101, 115, 116, 13, 10, 13, 10] rfl (by decide) (by decide)
      rfl).2.2.2 [52] (by decide) (by decide)

/-- Counterexample to C6 as stated: `U+00A0` (no-break space, a
non-ASCII Unicode whitespace code point) is in the trimming set used
by the parser, and on a record whose `X` header value carries a
trailing `U+00A0` the stored value is `v` alone — the non-ASCII
whitespace is removed, not preserved. -/
theorem c6_counterexample :
    isRustWhitespace 0xA0 = true ∧
    0x80 ≤ 0xA0 ∧
    parse nbspBytes =
      (.ok ⟨[87, 65, 82, 67, 47, 49, 46, 49],
        [(⟨[120]⟩, [118]), (contentLengthKey, [48])], []⟩, []) ∧
    hdrGet [(⟨[120]⟩, [118]), (contentLengthKey, [48])] ⟨[120]⟩ = some [118] :=
  ⟨rfl, by omega, rfl, rfl⟩

/-- C6, amended. The parser's whitespace trimming removes exactly
the code points of Rust's `char::is_whitespace` (the Unicode
`White_Space` set, which strictly contains ASCII space, tab, CR and
LF): a trailing whitespace code point — ASCII or not — is removed, a
trailing non-whitespace code point is kept together with everything
before it, and every header value stored in a successfully parsed
record is a fixed point of the trimming (no leading or trailing
Unicode whitespace survives). -/
theorem c6_unicode_trimming :
    (∀ (l : List Nat) (c : Nat), isRustWhitespace c = true →
      rtrimCps (l ++ [c]) = rtrimCps l) ∧
    (∀ (l : List Nat) (c : Nat), isRustWhitespace c = false →
      rtrimCps (l ++ [c]) = l ++ [c]) ∧
    (∀ s leftover r, parse s = (.ok r, leftover) →
      ∀ k v, hdrGet r.header k = some v → trimCps v = v) := by
  refine ⟨fun l c h => rtrimCps_append_ws h, fun l c h => rtrimCps_append_not_ws h, ?_⟩
  intro s leftover r h k v hget
  obtain ⟨version, rest2, cl, n, hdec, hv, hw, hver, hph, hrest⟩ := parse_ok_inv h
  refine parseHeaders_values (splitLine s).2.length (splitLine s).2 [] (le_refl _)
    ?_ r.header rest2 hph k v hget
  intro k2 v2 hg
  simp [hdrGet] at hg

/-- Witness for the amended C6: a trailing `U+00A0` is trimmed, a
trailing letter is kept, and the stored `X` value of the no-break
space record is trim-fixed. -/
theorem c6_unicode_trimming_witness :
    rtrimCps ([118] ++ [160]) = rtrimCps [118] ∧
    rtrimCps ([118] ++ [97]) = [118] ++ [97] ∧
    trimCps [118] = [118] := by
  refine ⟨c6_unicode_trimming.1 [118] 160 rfl, c6_unicode_trimming.2.1 [118] 97 rfl, ?_⟩
  exact c6_unicode_trimming.2.2 nbspBytes []
    ⟨[87, 65, 82, 67, 47, 49, 46, 49], [(⟨[120]⟩, [118]), (contentLengthKey, [48])], []⟩
    rfl ⟨[120]⟩ [118] rfl
